import Mathlib

/-!
Verification of the graph-processing core of `musiqasik`
(`src/rust/graph-wasm`): a shallow embedding of `normalize`,
`process_graph_data`, `resolve_links` and `process_and_resolve_graph`
from `graph_processor.rs`, together with the data model of `types.rs`,
and theorems settling the specification's claims about them.

Modelling conventions:
* Rust `String` is modelled as `List Char` (`Str` below); `str::to_lowercase`
  is modelled as character-wise lower-casing via `Char.toLower`.
* `f32` weights and thresholds are modelled as rationals `ℚ`: the pipelines
  only compare weights with `>=` and copy them through unchanged.
* `u32`/`usize` indices are modelled as `Nat`; the `idx as u32` cast in the
  source is the identity for node lists of length below `2^32`.
* `FxHashSet String` is only ever observed through `contains`, so it is
  modelled as a `List Str` with decidable membership.
* `FxHashMap` is built by `insert` (which overwrites any existing binding for
  the key) and observed only through `get`/`contains_key`; it is modelled as
  an association list in insertion order whose lookup (`mapGet`) returns the
  value of the most recent insertion for the key.
* The wasm-bindgen decode boundary (`serde_wasm_bindgen::from_value`) is
  modelled by `Except` inputs in the `_checked` variants; serialization of
  the outputs produced by the core is modelled as total, matching the
  specification's statement that encode failures are unreachable for
  well-formed outputs.
-/

namespace GraphWasm

/-- Rust `String`, modelled as its list of characters. -/
abbrev Str := List Char

/-- Embedding of `normalize` (graph_processor.rs, line 7): lower-casing with
no other transformation. -/
def normalize (s : Str) : Str := s.map Char.toLower

/-- Embedding of `Artist` (types.rs, lines 5-18). Numeric counters are
`Nat` (the code never computes with them, they are carried through). -/
structure Artist where
  id : Option Str
  name : Str
  mbid : Option Str
  url : Option Str
  image_url : Option Str
  listeners : Option Nat
  playcount : Option Nat
  tags : Option (List Str)
  lastfm_url : Option Str
deriving DecidableEq

/-- Embedding of `Edge` (types.rs, lines 22-27). -/
structure Edge where
  source : Str
  target : Str
  weight : ℚ
deriving DecidableEq

/-- Embedding of `GraphNode` (types.rs, lines 31-52). -/
structure GraphNode where
  id : Option Str
  name : Str
  mbid : Option Str
  url : Option Str
  image_url : Option Str
  listeners : Option Nat
  playcount : Option Nat
  tags : Option (List Str)
  lastfm_url : Option Str
  is_center : Bool
  x : Option ℚ
  y : Option ℚ
  fx : Option ℚ
  fy : Option ℚ
deriving DecidableEq

/-- Embedding of `GraphLink` (types.rs, lines 55-60). -/
structure GraphLink where
  source : Str
  target : Str
  weight : ℚ
deriving DecidableEq

/-- Embedding of `ResolvedLink` (types.rs, lines 64-69). -/
structure ResolvedLink where
  source : Nat
  target : Nat
  weight : ℚ
deriving DecidableEq

/-- Embedding of `ProcessedGraph` (types.rs, lines 72-76). -/
structure ProcessedGraph where
  nodes : List GraphNode
  links : List GraphLink
deriving DecidableEq

/-- Embedding of `ResolvedGraph` (types.rs, lines 80-84). -/
structure ResolvedGraph where
  nodes : List GraphNode
  links : List ResolvedLink
deriving DecidableEq

/-- Embedding of `impl From Artist for GraphNode` (types.rs, lines 86-105):
every field is carried over unchanged, `is_center` starts `false`, the four
position fields start absent. -/
def Artist.toGraphNode (a : Artist) : GraphNode :=
  { id := a.id, name := a.name, mbid := a.mbid, url := a.url,
    image_url := a.image_url, listeners := a.listeners,
    playcount := a.playcount, tags := a.tags, lastfm_url := a.lastfm_url,
    is_center := false, x := none, y := none, fx := none, fy := none }

/-- Lookup in an association list modelling `FxHashMap::get`: since
`insert` overwrites and bindings are kept in insertion order, the value of
the LAST binding for the key wins. -/
def mapGet {β : Type} : List (Str × β) → Str → Option β
  | [], _ => none
  | (kh, v) :: rest, k =>
    match mapGet rest k with
    | some vl => some vl
    | none => if kh = k then some v else none

/-- Embedding of the edge-filtering loop shared by `process_graph_data`
(graph_processor.rs, lines 42-48) and `process_and_resolve_graph` (lines
173-179): returns the connected-identity set (a list observed only through
membership) and the filtered edge list in input order. -/
def edgeFilter (threshold : ℚ) : List Edge → List Str × List Edge
  | [] => ([], [])
  | e :: es =>
    let rest := edgeFilter threshold es
    if threshold ≤ e.weight then
      (normalize e.source :: normalize e.target :: rest.1, e :: rest.2)
    else rest

/-- Embedding of the `norm_cache` of graph_processor.rs, lines 51-56: it
binds each node's name to that name's normalization. -/
def norm_cache (nodes : List Artist) : List (Str × Str) :=
  nodes.map fun n => (n.name, normalize n.name)

/-- Embedding of the node-filtering loop shared by `process_graph_data`
(graph_processor.rs, lines 62-77) and `process_and_resolve_graph` (lines
185-200): filters and transforms the nodes and builds the
identity-to-position map, positions starting at `idx`. The `norm_cache`
lookup of line 63 always returns `normalize node.name` (theorem
`norm_cache_get` below), so it is inlined here. -/
def nodeFilter (conn : List Str) (centerNorm : Option Str) (idx : Nat) :
    List Artist → List GraphNode × List (Str × Nat)
  | [] => ([], [])
  | node :: rest =>
    let normalized := normalize node.name
    let is_connected : Bool := decide (normalized ∈ conn)
    let is_center : Bool := centerNorm.elim false fun c => decide (normalized = c)
    if is_connected || is_center then
      let r := nodeFilter conn centerNorm (idx + 1) rest
      ({ node.toGraphNode with is_center := is_center } :: r.1,
       (normalized, idx) :: r.2)
    else
      nodeFilter conn centerNorm idx rest

/-- Embedding of `process_graph_data` (graph_processor.rs, lines 21-103)
after the decode boundary: edge filtering, node filtering, then link
building, which keeps a surviving edge iff both normalized endpoints are
keys of the node map (`contains_key` is `(mapGet _ _).isSome`) and
re-materializes it with the original casing. -/
def process_graph_data (nodes : List Artist) (edges : List Edge)
    (center_artist : Option Str) (threshold : ℚ) : ProcessedGraph :=
  let center_normalized := center_artist.map normalize
  let p := edgeFilter threshold edges
  let q := nodeFilter p.1 center_normalized 0 nodes
  { nodes := q.1,
    links := (p.2.filter fun e =>
        (mapGet q.2 (normalize e.source)).isSome &&
        (mapGet q.2 (normalize e.target)).isSome).map
      fun e => { source := e.source, target := e.target, weight := e.weight } }

/-- Embedding of the node-index map construction of `resolve_links`
(graph_processor.rs, lines 123-125): one binding per node in list order,
keyed by the normalized name, with the node's position as value. -/
def buildNodeIndices (idx : Nat) : List GraphNode → List (Str × Nat)
  | [] => []
  | n :: ns => (normalize n.name, idx) :: buildNodeIndices (idx + 1) ns

/-- Embedding of `resolve_links` (graph_processor.rs, lines 113-148) after
the decode boundary: each link whose two normalized endpoints are in the
index map is resolved to indices, all others are dropped. -/
def resolve_links (nodes : List GraphNode) (links : List GraphLink) :
    List ResolvedLink :=
  let node_indices := buildNodeIndices 0 nodes
  links.filterMap fun link =>
    match mapGet node_indices (normalize link.source),
          mapGet node_indices (normalize link.target) with
    | some src_idx, some tgt_idx =>
      some { source := src_idx, target := tgt_idx, weight := link.weight }
    | _, _ => none

/-- Embedding of `process_and_resolve_graph` (graph_processor.rs, lines
156-228) after the decode boundary: same edge and node phases as
`process_graph_data`, then each surviving edge is resolved directly to
indices through the node map built during node filtering. -/
def process_and_resolve_graph (nodes : List Artist) (edges : List Edge)
    (center_artist : Option Str) (threshold : ℚ) : ResolvedGraph :=
  let center_normalized := center_artist.map normalize
  let p := edgeFilter threshold edges
  let q := nodeFilter p.1 center_normalized 0 nodes
  { nodes := q.1,
    links := p.2.filterMap fun edge =>
      match mapGet q.2 (normalize edge.source),
            mapGet q.2 (normalize edge.target) with
      | some src_idx, some tgt_idx =>
        some { source := src_idx, target := tgt_idx, weight := edge.weight }
      | _, _ => none }

/-- Decode-boundary wrapper for `process_graph_data`: the two decode steps
of graph_processor.rs, lines 28-31, with already-decoded-or-failed inputs
standing for `serde_wasm_bindgen::from_value`; a decode failure aborts the
call before any processing. -/
def process_graph_data_checked (nodesResult : Except Str (List Artist))
    (edgesResult : Except Str (List Edge)) (center_artist : Option Str)
    (threshold : ℚ) : Except Str ProcessedGraph :=
  match nodesResult with
  | .error e => .error ("Failed to parse nodes: ".data ++ e)
  | .ok nodes =>
    match edgesResult with
    | .error e => .error ("Failed to parse edges: ".data ++ e)
    | .ok edges => .ok (process_graph_data nodes edges center_artist threshold)

/-- Decode-boundary wrapper for `resolve_links` (graph_processor.rs, lines
114-117). -/
def resolve_links_checked (nodesResult : Except Str (List GraphNode))
    (linksResult : Except Str (List GraphLink)) : Except Str (List ResolvedLink) :=
  match nodesResult with
  | .error e => .error ("Failed to parse nodes: ".data ++ e)
  | .ok nodes =>
    match linksResult with
    | .error e => .error ("Failed to parse links: ".data ++ e)
    | .ok links => .ok (resolve_links nodes links)

/-- Decode-boundary wrapper for `process_and_resolve_graph`
(graph_processor.rs, lines 162-165). -/
def process_and_resolve_graph_checked (nodesResult : Except Str (List Artist))
    (edgesResult : Except Str (List Edge)) (center_artist : Option Str)
    (threshold : ℚ) : Except Str ResolvedGraph :=
  match nodesResult with
  | .error e => .error ("Failed to parse nodes: ".data ++ e)
  | .ok nodes =>
    match edgesResult with
    | .error e => .error ("Failed to parse edges: ".data ++ e)
    | .ok edges => .ok (process_and_resolve_graph nodes edges center_artist threshold)

/-- Specification-side predicate: the inclusion condition of the node
filter (connected, or identical to the normalized center). -/
def includePred (conn : List Str) (centerNorm : Option Str) (a : Artist) : Bool :=
  decide (normalize a.name ∈ conn) ||
    centerNorm.elim false fun c => decide (normalize a.name = c)

/-- Specification-side predicate: whether an identity key equals the
normalized center. -/
def isCenterFlag (centerNorm : Option Str) (k : Str) : Bool :=
  centerNorm.elim false fun c => decide (k = c)

/-- Specification-side function: position of the LAST node of the list
whose normalized name is `k`, if any. -/
def lastPosOf (k : Str) : List GraphNode → Option Nat
  | [] => none
  | n :: ns =>
    match lastPosOf k ns with
    | some i => some (i + 1)
    | none => if normalize n.name = k then some 0 else none

/-- Auxiliary: the code point of `Char.ofNatAux` is the given (valid) value. -/
theorem toNat_ofNatAux (n : Nat) (h : n.isValidChar) :
    (Char.ofNatAux n h).toNat = n := by
  simp [Char.ofNatAux, Char.toNat, UInt32.toNat, UInt32.ofNat', BitVec.toNat_ofNatLt]

/-- Auxiliary: `Char.toLower` is idempotent (the image of the ASCII
upper-case range lies outside that range). -/
theorem toLower_toLower (c : Char) : c.toLower.toLower = c.toLower := by
  unfold Char.toLower
  by_cases h : c.toNat ≥ 65 ∧ c.toNat ≤ 90
  · rw [if_pos h]
    have hv : (c.toNat + 32).isValidChar := Or.inl (by omega)
    have ht : (Char.ofNat (c.toNat + 32)).toNat = c.toNat + 32 := by
      rw [Char.ofNat, dif_pos hv]; exact toNat_ofNatAux _ hv
    rw [if_neg (by omega)]
  · rw [if_neg h, if_neg h]

/-- Auxiliary: unfolding `mapGet` on a cons cell when the tail lookup
misses. -/
theorem mapGet_cons_of_none {β : Type} {rest : List (Str × β)} {k : Str}
    (kh : Str) (vh : β) (h : mapGet rest k = none) :
    mapGet ((kh, vh) :: rest) k = if kh = k then some vh else none := by
  rw [mapGet, h]

/-- Auxiliary: unfolding `mapGet` on a cons cell when the tail lookup hits
(the later binding shadows the head, i.e. the last insertion wins). -/
theorem mapGet_cons_of_some {β : Type} {rest : List (Str × β)} {k : Str} {vl : β}
    (kh : Str) (vh : β) (h : mapGet rest k = some vl) :
    mapGet ((kh, vh) :: rest) k = some vl := by
  rw [mapGet, h]

/-- Auxiliary: a successful association-list lookup returns a binding of
the list. -/
theorem mapGet_mem {β : Type} (m : List (Str × β)) (k : Str) (v : β)
    (h : mapGet m k = some v) : (k, v) ∈ m := by
  induction m with
  | nil => simp [mapGet] at h
  | cons p rest ih =>
    obtain ⟨kh, vh⟩ := p
    cases hm : mapGet rest k with
    | none =>
      rw [mapGet_cons_of_none kh vh hm] at h
      by_cases hk : kh = k
      · rw [if_pos hk] at h
        cases h
        subst hk
        exact List.mem_cons_self _ _
      · rw [if_neg hk] at h
        cases h
    | some vl =>
      rw [mapGet_cons_of_some kh vh hm] at h
      cases h
      exact List.mem_cons_of_mem _ (ih hm)

/-- Auxiliary: an association-list lookup succeeds exactly on the keys of
the list. -/
theorem mapGet_isSome_iff {β : Type} (m : List (Str × β)) (k : Str) :
    (mapGet m k).isSome = true ↔ k ∈ m.map Prod.fst := by
  induction m with
  | nil => simp [mapGet]
  | cons p rest ih =>
    obtain ⟨kh, vh⟩ := p
    simp only [List.map_cons, List.mem_cons]
    cases hm : mapGet rest k with
    | none =>
      rw [hm] at ih
      simp only [Option.isSome_none, Bool.false_eq_true, false_iff] at ih
      rw [mapGet_cons_of_none kh vh hm]
      by_cases hk : kh = k
      · rw [if_pos hk]
        simp only [Option.isSome_some, true_iff]
        exact Or.inl hk.symm
      · rw [if_neg hk]
        simp only [Option.isSome_none, Bool.false_eq_true, false_iff]
        rintro (h | h)
        · exact hk h.symm
        · exact ih h
    | some vl =>
      rw [hm] at ih
      simp only [Option.isSome_some, true_iff] at ih
      rw [mapGet_cons_of_some kh vh hm]
      simp only [Option.isSome_some, true_iff]
      exact Or.inr ih

/-- Auxiliary: the `norm_cache` lookup of graph_processor.rs, line 63,
always returns the normalization of the looked-up node name (so inlining
it inside `nodeFilter` is faithful, and the `unwrap` there never
panics). -/
theorem norm_cache_get (nodes : List Artist) (a : Artist) (h : a ∈ nodes) :
    mapGet (norm_cache nodes) a.name = some (normalize a.name) := by
  have hkey : a.name ∈ (norm_cache nodes).map Prod.fst := by
    simp only [norm_cache, List.map_map]
    exact List.mem_map.2 ⟨a, h, rfl⟩
  rcases ho : mapGet (norm_cache nodes) a.name with _ | v
  · rw [← mapGet_isSome_iff] at hkey
    rw [ho] at hkey
    cases hkey
  · have hv := mapGet_mem _ _ _ ho
    simp only [norm_cache, List.mem_map] at hv
    obtain ⟨n, _, hn⟩ := hv
    have h1 : n.name = a.name := congrArg Prod.fst hn
    have h2 : normalize n.name = v := congrArg Prod.snd hn
    rw [← h2, h1]

/-- Claim C8: `normalize` is the pure character-wise lower-casing function
with no other transformation, it is idempotent, and it is case-insensitive
on the concrete pair RADIOHEAD / radiohead. -/
theorem C8_normalize_pure_idempotent_case_insensitive :
    (∀ s : Str, normalize s = s.map Char.toLower) ∧
    (∀ s : Str, normalize (normalize s) = normalize s) ∧
    normalize "RADIOHEAD".data = normalize "radiohead".data := by
  refine ⟨fun s => rfl, fun s => ?_, by decide⟩
  induction s with
  | nil => rfl
  | cons c cs ih =>
    simp only [normalize, List.map_cons] at *
    rw [toLower_toLower]
    exact congrArg _ ih

/-- Auxiliary: unfolding `edgeFilter` on an edge meeting the threshold. -/
theorem edgeFilter_cons_pos (threshold : ℚ) (e : Edge) (es : List Edge)
    (h : threshold ≤ e.weight) :
    edgeFilter threshold (e :: es) =
      (normalize e.source :: normalize e.target :: (edgeFilter threshold es).1,
       e :: (edgeFilter threshold es).2) := by
  rw [edgeFilter]
  rw [if_pos h]

/-- Auxiliary: unfolding `edgeFilter` on an edge below the threshold. -/
theorem edgeFilter_cons_neg (threshold : ℚ) (e : Edge) (es : List Edge)
    (h : ¬threshold ≤ e.weight) :
    edgeFilter threshold (e :: es) = edgeFilter threshold es := by
  rw [edgeFilter]
  rw [if_neg h]

/-- Claim C4: an edge survives edge filtering iff its weight is at least
the threshold (the boundary weight equal to the threshold is kept), and
the filtered list keeps the surviving edges in input order: it is exactly
`List.filter` of the inclusive comparison. -/
theorem C4_edge_filter_threshold_inclusive (edges : List Edge) (threshold : ℚ) :
    (edgeFilter threshold edges).2 =
      (edges.filter fun e => decide (threshold ≤ e.weight)) ∧
    ∀ e : Edge, e ∈ (edgeFilter threshold edges).2 ↔ e ∈ edges ∧ threshold ≤ e.weight := by
  have h1 : ∀ es : List Edge, (edgeFilter threshold es).2 =
      es.filter fun e => decide (threshold ≤ e.weight) := by
    intro es
    induction es with
    | nil => rfl
    | cons e es ih =>
      by_cases h : threshold ≤ e.weight
      · rw [edgeFilter_cons_pos threshold e es h,
          List.filter_cons_of_pos (by simpa using h)]
        exact congrArg _ ih
      · rw [edgeFilter_cons_neg threshold e es h,
          List.filter_cons_of_neg (by simpa using h)]
        exact ih
  refine ⟨h1 edges, fun e => ?_⟩
  rw [h1 edges, List.mem_filter]
  simp

/-- Auxiliary: unfolding `nodeFilter` on an included node. -/
theorem nodeFilter_cons_pos (conn : List Str) (cN : Option Str) (node : Artist)
    (idx : Nat) (rest : List Artist) (h : includePred conn cN node = true) :
    nodeFilter conn cN idx (node :: rest) =
      ({ node.toGraphNode with is_center := isCenterFlag cN (normalize node.name) }
         :: (nodeFilter conn cN (idx + 1) rest).1,
       (normalize node.name, idx) :: (nodeFilter conn cN (idx + 1) rest).2) := by
  rw [nodeFilter]
  simp only []
  rw [show (decide (normalize node.name ∈ conn) ||
      cN.elim false fun c => decide (normalize node.name = c)) =
      includePred conn cN node from rfl, h, if_pos rfl]
  rfl

/-- Auxiliary: unfolding `nodeFilter` on an excluded node. -/
theorem nodeFilter_cons_neg (conn : List Str) (cN : Option Str) (node : Artist)
    (idx : Nat) (rest : List Artist) (h : includePred conn cN node = false) :
    nodeFilter conn cN idx (node :: rest) = nodeFilter conn cN idx rest := by
  rw [nodeFilter]
  simp only []
  rw [show (decide (normalize node.name ∈ conn) ||
      cN.elim false fun c => decide (normalize node.name = c)) =
      includePred conn cN node from rfl, h]
  simp

/-- Auxiliary: the filtered node list is the `filter`-then-`map`
characterization of the node-filtering loop, independent of the starting
position. -/
theorem nodeFilter_fst (conn : List Str) (cN : Option Str) (nodes : List Artist) :
    ∀ idx : Nat, (nodeFilter conn cN idx nodes).1 =
      (nodes.filter (includePred conn cN)).map
        fun a => { a.toGraphNode with is_center := isCenterFlag cN (normalize a.name) } := by
  induction nodes with
  | nil => intro idx; rfl
  | cons node rest ih =>
    intro idx
    cases hb : includePred conn cN node with
    | true =>
      rw [nodeFilter_cons_pos conn cN node idx rest hb,
        List.filter_cons_of_pos hb, List.map_cons]
      exact congrArg _ (ih (idx + 1))
    | false =>
      rw [nodeFilter_cons_neg conn cN node idx rest hb,
        List.filter_cons_of_neg (by simp [hb])]
      exact ih idx

/-- Auxiliary: the identity-to-position map built by the node-filtering
loop is exactly the index map `resolve_links` would build from the
filtered node list. -/
theorem nodeFilter_snd (conn : List Str) (cN : Option Str) (nodes : List Artist) :
    ∀ idx : Nat, (nodeFilter conn cN idx nodes).2 =
      buildNodeIndices idx (nodeFilter conn cN idx nodes).1 := by
  induction nodes with
  | nil => intro idx; rfl
  | cons node rest ih =>
    intro idx
    cases hb : includePred conn cN node with
    | true =>
      rw [nodeFilter_cons_pos conn cN node idx rest hb]
      show (normalize node.name, idx) :: (nodeFilter conn cN (idx + 1) rest).2 = _
      rw [buildNodeIndices]
      exact congrArg _ (ih (idx + 1))
    | false =>
      rw [nodeFilter_cons_neg conn cN node idx rest hb]
      exact ih idx

/-- Claim C5: node filtering keeps exactly the nodes whose normalized name
is in the connected set or equals the normalized center, in input order,
with `is_center` set iff the normalized name equals the normalized center;
input nodes normalizing to the same key are each evaluated independently
and kept at distinct positions (the output is a `filter`-then-`map` of the
input, with no deduplication). -/
theorem C5_node_filter_characterization (nodes : List Artist) (conn : List Str)
    (cN : Option Str) :
    (nodeFilter conn cN 0 nodes).1 =
      (nodes.filter fun a => decide (normalize a.name ∈ conn) ||
          cN.elim false fun c => decide (normalize a.name = c)).map
        (fun a => { a.toGraphNode with
                    is_center := cN.elim false fun c => decide (normalize a.name = c) }) ∧
    ∀ g ∈ (nodeFilter conn cN 0 nodes).1,
      g.is_center = (cN.elim false fun c => decide (normalize g.name = c)) := by
  constructor
  · exact nodeFilter_fst conn cN nodes 0
  · intro g hg
    rw [nodeFilter_fst conn cN nodes 0] at hg
    obtain ⟨a, _, ha⟩ := List.mem_map.1 hg
    rw [← ha]
    rfl

/-- Auxiliary: unfolding `lastPosOf` on a cons cell when the tail has an
occurrence. -/
theorem lastPosOf_cons_some {k : Str} {ns : List GraphNode} {i : Nat}
    (n : GraphNode) (h : lastPosOf k ns = some i) :
    lastPosOf k (n :: ns) = some (i + 1) := by
  rw [lastPosOf, h]

/-- Auxiliary: unfolding `lastPosOf` on a cons cell when the tail has no
occurrence. -/
theorem lastPosOf_cons_none {k : Str} {ns : List GraphNode}
    (n : GraphNode) (h : lastPosOf k ns = none) :
    lastPosOf k (n :: ns) = if normalize n.name = k then some 0 else none := by
  rw [lastPosOf, h]

/-- Auxiliary: looking a key up in the index map built from position `idx`
yields the last-occurrence position shifted by `idx`. -/
theorem mapGet_buildNodeIndices (ns : List GraphNode) (k : Str) :
    ∀ idx : Nat, mapGet (buildNodeIndices idx ns) k = (lastPosOf k ns).map (· + idx) := by
  induction ns with
  | nil => intro idx; rfl
  | cons n ns ih =>
    intro idx
    rw [buildNodeIndices]
    cases hl : lastPosOf k ns with
    | some i =>
      have hm : mapGet (buildNodeIndices (idx + 1) ns) k = some (i + (idx + 1)) := by
        rw [ih (idx + 1), hl]
        rfl
      rw [mapGet_cons_of_some _ _ hm, lastPosOf_cons_some n hl]
      show some (i + (idx + 1)) = some (i + 1 + idx)
      congr 1
      omega
    | none =>
      have hm : mapGet (buildNodeIndices (idx + 1) ns) k = none := by
        rw [ih (idx + 1), hl]
        rfl
      rw [mapGet_cons_of_none _ _ hm, lastPosOf_cons_none n hl]
      by_cases hk : normalize n.name = k
      · rw [if_pos hk, if_pos hk]
        show some idx = some (0 + idx)
        congr 1
        omega
      · rw [if_neg hk, if_neg hk]
        rfl

/-- Auxiliary: a last-occurrence position is a valid position. -/
theorem lastPosOf_lt_length (k : Str) (ns : List GraphNode) :
    ∀ i : Nat, lastPosOf k ns = some i → i < ns.length := by
  induction ns with
  | nil => intro i h; cases h
  | cons n ns ih =>
    intro i h
    cases hl : lastPosOf k ns with
    | some j =>
      rw [lastPosOf_cons_some n hl] at h
      cases h
      have := ih j hl
      simp only [List.length_cons]
      omega
    | none =>
      rw [lastPosOf_cons_none n hl] at h
      by_cases hk : normalize n.name = k
      · rw [if_pos hk] at h
        cases h
        simp
      · rw [if_neg hk] at h
        cases h

/-- Auxiliary: `lastPosOf` succeeds exactly when some node has the given
normalized name. -/
theorem lastPosOf_isSome_iff (k : Str) (ns : List GraphNode) :
    (lastPosOf k ns).isSome = true ↔ ∃ n ∈ ns, normalize n.name = k := by
  induction ns with
  | nil => simp [lastPosOf]
  | cons n ns ih =>
    cases hl : lastPosOf k ns with
    | some i =>
      rw [lastPosOf_cons_some n hl]
      rw [hl] at ih
      simp only [Option.isSome_some, true_iff] at ih ⊢
      obtain ⟨m, hm, hk⟩ := ih
      exact ⟨m, List.mem_cons_of_mem _ hm, hk⟩
    | none =>
      rw [lastPosOf_cons_none n hl]
      rw [hl] at ih
      simp only [Option.isSome_none, Bool.false_eq_true, false_iff] at ih
      by_cases hk : normalize n.name = k
      · rw [if_pos hk]
        simp only [Option.isSome_some, true_iff]
        exact ⟨n, List.mem_cons_self _ _, hk⟩
      · rw [if_neg hk]
        simp only [Option.isSome_none, Bool.false_eq_true, false_iff]
        rintro ⟨m, hm, hmk⟩
        rcases List.mem_cons.1 hm with h | h
        · exact hk (h ▸ hmk)
        · exact ih ⟨m, h, hmk⟩

/-- Auxiliary: `lastPosOf` returns the position of the LAST node with the
given normalized name: the node there has that name and no later node
does. -/
theorem lastPosOf_spec (k : Str) (ns : List GraphNode) :
    ∀ (i : Nat) (hi : i < ns.length), lastPosOf k ns = some i →
      normalize (ns.get ⟨i, hi⟩).name = k ∧
      ∀ (j : Nat) (hj : j < ns.length), i < j → normalize (ns.get ⟨j, hj⟩).name ≠ k := by
  induction ns with
  | nil => intro i hi; exact absurd hi (Nat.not_lt_zero i)
  | cons n ns ih =>
    intro i hi h
    cases hl : lastPosOf k ns with
    | some p =>
      rw [lastPosOf_cons_some n hl] at h
      cases h
      have hp : p < ns.length := lastPosOf_lt_length k ns p hl
      obtain ⟨h1, h2⟩ := ih p hp hl
      refine ⟨by simpa using h1, ?_⟩
      intro j hj hij
      cases j with
      | zero => omega
      | succ j2 =>
        have hj2 : j2 < ns.length := by simpa using hj
        have := h2 j2 hj2 (by omega)
        simpa using this
    | none =>
      rw [lastPosOf_cons_none n hl] at h
      by_cases hk : normalize n.name = k
      · rw [if_pos hk] at h
        cases h
        refine ⟨by simpa using hk, ?_⟩
        intro j hj hij
        cases j with
        | zero => omega
        | succ j2 =>
          have hj2 : j2 < ns.length := by simpa using hj
          intro hcon
          have hex : ∃ m ∈ ns, normalize m.name = k :=
            ⟨ns.get ⟨j2, hj2⟩, List.get_mem ns j2 hj2, by simpa using hcon⟩
          have := (lastPosOf_isSome_iff k ns).2 hex
          rw [hl] at this
          cases this
      · rw [if_neg hk] at h
        cases h

/-- Concrete node named a, used in counterexamples and witnesses. -/
def nodeA1 : GraphNode :=
  { id := some "1".data, name := "a".data, mbid := none, url := none,
    image_url := none, listeners := none, playcount := none, tags := none,
    lastfm_url := none, is_center := false, x := none, y := none,
    fx := none, fy := none }

/-- Concrete second node also named a (duplicate identity). -/
def nodeA2 : GraphNode := { nodeA1 with id := some "2".data }

/-- Concrete self-link on a. -/
def linkAA : GraphLink := { source := "a".data, target := "a".data, weight := 1 }

/-- Claim C3 as stated is false on the code: with two nodes both
normalizing to a, the identity-to-position map of `resolve_links` returns
position 1 (the LAST occurrence — `HashMap::insert` overwrites), not
position 0 (the first occurrence), and the duplicate-identity link
endpoint resolves to the largest such position, not the smallest. -/
theorem C3_counterexample :
    normalize nodeA1.name = normalize nodeA2.name ∧
    mapGet (buildNodeIndices 0 [nodeA1, nodeA2]) (normalize nodeA1.name) = some 1 ∧
    mapGet (buildNodeIndices 0 [nodeA1, nodeA2]) (normalize nodeA1.name) ≠ some 0 ∧
    resolve_links [nodeA1, nodeA2] [linkAA] =
      [{ source := 1, target := 1, weight := 1 }] := by
  refine ⟨by decide, by decide, by decide, by decide⟩

/-- Claim C3 amended: the identity-to-position map sends each normalized
node name to the 0-based position of the LAST node in the given list
having that normalized name (later duplicates overwrite earlier ones in
the map), so a duplicated identity resolves to the largest such position;
by `nodeFilter_snd` the same holds for the fused pipeline's map. -/
theorem C3_amended_last_occurrence_wins (nodes : List GraphNode) (k : Str) :
    mapGet (buildNodeIndices 0 nodes) k = lastPosOf k nodes ∧
    ∀ (i : Nat) (hi : i < nodes.length), lastPosOf k nodes = some i →
      normalize (nodes.get ⟨i, hi⟩).name = k ∧
      ∀ (j : Nat) (hj : j < nodes.length), i < j →
        normalize (nodes.get ⟨j, hj⟩).name ≠ k := by
  constructor
  · rw [mapGet_buildNodeIndices nodes k 0]
    cases lastPosOf k nodes <;> simp
  · exact lastPosOf_spec k nodes

/-- Concrete instantiation of `C3_amended_last_occurrence_wins` at the
duplicate-identity node list. -/
theorem C3_amended_witness :
    normalize (([nodeA1, nodeA2] : List GraphNode).get ⟨1, by decide⟩).name = "a".data :=
  ((C3_amended_last_occurrence_wins [nodeA1, nodeA2] "a".data).2 1 (by decide)
    (by decide)).1

/-- Auxiliary: the keys of the index map are the normalized node names. -/
theorem buildNodeIndices_keys (ns : List GraphNode) :
    ∀ idx : Nat, (buildNodeIndices idx ns).map Prod.fst =
      ns.map fun n => normalize n.name := by
  induction ns with
  | nil => intro idx; rfl
  | cons n ns ih =>
    intro idx
    rw [buildNodeIndices, List.map_cons, List.map_cons, ih (idx + 1)]

/-- Auxiliary: an index-map lookup succeeds exactly when some node has the
looked-up normalized name. -/
theorem mapGet_buildNodeIndices_isSome (ns : List GraphNode) (k : Str) :
    (mapGet (buildNodeIndices 0 ns) k).isSome = true ↔
      k ∈ ns.map fun n => normalize n.name := by
  rw [mapGet_isSome_iff, buildNodeIndices_keys]

/-- Auxiliary: any value returned by an index-map lookup is a valid
position into the node list. -/
theorem mapGet_buildNodeIndices_lt (ns : List GraphNode) (k : Str) (v : Nat)
    (h : mapGet (buildNodeIndices 0 ns) k = some v) : v < ns.length := by
  rw [mapGet_buildNodeIndices ns k 0] at h
  cases hl : lastPosOf k ns with
  | none => rw [hl] at h; cases h
  | some i =>
    rw [hl] at h
    have hlt := lastPosOf_lt_length k ns i hl
    have : i + 0 = v := by
      have := Option.some.inj h
      simpa using this
    omega

/-- Auxiliary: unfolding `resolve_links` when both endpoints are in the
index map. -/
theorem resolve_links_cons_hit {nodes : List GraphNode} {l : GraphLink}
    {ls : List GraphLink} {s t : Nat}
    (h1 : mapGet (buildNodeIndices 0 nodes) (normalize l.source) = some s)
    (h2 : mapGet (buildNodeIndices 0 nodes) (normalize l.target) = some t) :
    resolve_links nodes (l :: ls) =
      { source := s, target := t, weight := l.weight } :: resolve_links nodes ls := by
  simp only [resolve_links]
  simp only [List.filterMap_cons, h1, h2]

/-- Auxiliary: unfolding `resolve_links` when the source endpoint is
absent from the index map. -/
theorem resolve_links_cons_miss_source {nodes : List GraphNode} {l : GraphLink}
    {ls : List GraphLink}
    (h1 : mapGet (buildNodeIndices 0 nodes) (normalize l.source) = none) :
    resolve_links nodes (l :: ls) = resolve_links nodes ls := by
  simp only [resolve_links]
  simp only [List.filterMap_cons, h1]

/-- Auxiliary: unfolding `resolve_links` when the target endpoint is
absent from the index map. -/
theorem resolve_links_cons_miss_target {nodes : List GraphNode} {l : GraphLink}
    {ls : List GraphLink}
    (h2 : mapGet (buildNodeIndices 0 nodes) (normalize l.target) = none) :
    resolve_links nodes (l :: ls) = resolve_links nodes ls := by
  simp only [resolve_links]
  simp only [List.filterMap_cons, h2]
  cases mapGet (buildNodeIndices 0 nodes) (normalize l.source) <;> rfl

/-- Claim C6: `resolve_links` silently drops exactly the links with a
normalized endpoint absent from the node identities (it is a total
function — no error is possible), resolves the endpoints of every other
link through the index map, preserves the input link order, and passes
every weight through unchanged: it equals a `filter`-then-`map` of the
input link list. -/
theorem C6_resolve_links_drop_semantics (nodes : List GraphNode)
    (links : List GraphLink) :
    resolve_links nodes links =
      (links.filter fun l =>
          decide (normalize l.source ∈ nodes.map fun n => normalize n.name) &&
          decide (normalize l.target ∈ nodes.map fun n => normalize n.name)).map
        fun l =>
          { source := (mapGet (buildNodeIndices 0 nodes) (normalize l.source)).getD 0,
            target := (mapGet (buildNodeIndices 0 nodes) (normalize l.target)).getD 0,
            weight := l.weight } := by
  induction links with
  | nil => rfl
  | cons l ls ih =>
    cases h1 : mapGet (buildNodeIndices 0 nodes) (normalize l.source) with
    | none =>
      have c1 : decide (normalize l.source ∈ nodes.map fun n => normalize n.name) = false := by
        rw [decide_eq_false_iff_not]
        intro hmem
        have hsome := (mapGet_buildNodeIndices_isSome nodes _).2 hmem
        rw [h1] at hsome
        cases hsome
      rw [resolve_links_cons_miss_source h1, ih,
        List.filter_cons_of_neg (by rw [c1]; simp)]
    | some s =>
      have c1 : decide (normalize l.source ∈ nodes.map fun n => normalize n.name) = true := by
        rw [decide_eq_true_eq]
        exact (mapGet_buildNodeIndices_isSome nodes _).1 (by rw [h1]; rfl)
      cases h2 : mapGet (buildNodeIndices 0 nodes) (normalize l.target) with
      | none =>
        have c2 : decide (normalize l.target ∈ nodes.map fun n => normalize n.name) = false := by
          rw [decide_eq_false_iff_not]
          intro hmem
          have hsome := (mapGet_buildNodeIndices_isSome nodes _).2 hmem
          rw [h2] at hsome
          cases hsome
        rw [resolve_links_cons_miss_target h2, ih,
          List.filter_cons_of_neg (by rw [c1, c2]; simp)]
      | some t =>
        have c2 : decide (normalize l.target ∈ nodes.map fun n => normalize n.name) = true := by
          rw [decide_eq_true_eq]
          exact (mapGet_buildNodeIndices_isSome nodes _).1 (by rw [h2]; rfl)
        rw [resolve_links_cons_hit h1 h2, ih,
          List.filter_cons_of_pos (by rw [c1, c2]; rfl), List.map_cons]
        congr 1
        rw [h1, h2]
        rfl

/-- Claim C2: referential integrity of `process_graph_data` — every
emitted link names two nodes of the accompanying filtered node list, up to
normalization (no emitted link dangles). -/
theorem C2_referential_integrity (nodes : List Artist) (edges : List Edge)
    (center : Option Str) (threshold : ℚ) (link : GraphLink)
    (h : link ∈ (process_graph_data nodes edges center threshold).links) :
    (∃ n ∈ (process_graph_data nodes edges center threshold).nodes,
        normalize n.name = normalize link.source) ∧
    (∃ n ∈ (process_graph_data nodes edges center threshold).nodes,
        normalize n.name = normalize link.target) := by
  simp only [process_graph_data] at h ⊢
  obtain ⟨e, he, hrem⟩ := List.mem_map.1 h
  have hcond := (List.mem_filter.1 he).2
  rw [Bool.and_eq_true] at hcond
  obtain ⟨c1, c2⟩ := hcond
  rw [nodeFilter_snd] at c1 c2
  have m1 := (mapGet_buildNodeIndices_isSome _ _).1 c1
  have m2 := (mapGet_buildNodeIndices_isSome _ _).1 c2
  rw [← hrem]
  constructor
  · obtain ⟨n, hn, hnk⟩ := List.mem_map.1 m1
    exact ⟨n, hn, hnk⟩
  · obtain ⟨n, hn, hnk⟩ := List.mem_map.1 m2
    exact ⟨n, hn, hnk⟩

/-- Concrete artist named a, used in witnesses. -/
def artistA : Artist :=
  { id := some "1".data, name := "a".data, mbid := none, url := none,
    image_url := none, listeners := none, playcount := none, tags := none,
    lastfm_url := none }

/-- Concrete self-edge on a with weight 1. -/
def edgeAA : Edge := { source := "a".data, target := "a".data, weight := 1 }

/-- Concrete instantiation of `C2_referential_integrity`: the self-link on
a emitted for `artistA` names a node of the output list. -/
theorem C2_witness :
    ∃ n ∈ (process_graph_data [artistA] [edgeAA] none 0).nodes,
      normalize n.name =
        normalize ({ source := "a".data, target := "a".data, weight := 1 } : GraphLink).source :=
  (C2_referential_integrity [artistA] [edgeAA] none 0
    { source := "a".data, target := "a".data, weight := 1 } (by decide)).1

/-- Claim C7: every `ResolvedLink` produced by `resolve_links` or
`process_and_resolve_graph` has both indices strictly below the length of
the accompanying node list; and on a node list without duplicate
normalized names the node at position `i` is assigned index `i` by the
index map. -/
theorem C7_resolved_indices_valid (nodes : List GraphNode) (links : List GraphLink)
    (artists : List Artist) (edges : List Edge) (center : Option Str) (threshold : ℚ) :
    (∀ l ∈ resolve_links nodes links,
        l.source < nodes.length ∧ l.target < nodes.length) ∧
    (∀ l ∈ (process_and_resolve_graph artists edges center threshold).links,
        l.source < (process_and_resolve_graph artists edges center threshold).nodes.length ∧
        l.target < (process_and_resolve_graph artists edges center threshold).nodes.length) ∧
    ((nodes.map fun n => normalize n.name).Nodup →
      ∀ (i : Nat) (hi : i < nodes.length),
        mapGet (buildNodeIndices 0 nodes) (normalize (nodes.get ⟨i, hi⟩).name) = some i) := by
  refine ⟨?_, ?_, ?_⟩
  · intro l hl
    simp only [resolve_links] at hl
    obtain ⟨a, _, hf⟩ := List.mem_filterMap.1 hl
    cases h1 : mapGet (buildNodeIndices 0 nodes) (normalize a.source) with
    | none => rw [h1] at hf; cases hf
    | some s =>
      cases h2 : mapGet (buildNodeIndices 0 nodes) (normalize a.target) with
      | none => rw [h1, h2] at hf; cases hf
      | some t =>
        rw [h1, h2] at hf
        cases hf
        exact ⟨mapGet_buildNodeIndices_lt nodes _ s h1,
               mapGet_buildNodeIndices_lt nodes _ t h2⟩
  · intro l hl
    simp only [process_and_resolve_graph] at hl ⊢
    obtain ⟨a, _, hf⟩ := List.mem_filterMap.1 hl
    rw [nodeFilter_snd] at hf
    cases h1 : mapGet (buildNodeIndices 0 (nodeFilter (edgeFilter threshold edges).1
        (center.map normalize) 0 artists).1) (normalize a.source) with
    | none => rw [h1] at hf; cases hf
    | some s =>
      cases h2 : mapGet (buildNodeIndices 0 (nodeFilter (edgeFilter threshold edges).1
          (center.map normalize) 0 artists).1) (normalize a.target) with
      | none => rw [h1, h2] at hf; cases hf
      | some t =>
        rw [h1, h2] at hf
        cases hf
        exact ⟨mapGet_buildNodeIndices_lt _ _ s h1,
               mapGet_buildNodeIndices_lt _ _ t h2⟩
  · intro hnd i hi
    rw [mapGet_buildNodeIndices nodes _ 0]
    have hmm : ∃ n ∈ nodes, normalize n.name = normalize (nodes.get ⟨i, hi⟩).name :=
      ⟨nodes.get ⟨i, hi⟩, List.get_mem nodes i hi, rfl⟩
    cases hl : lastPosOf (normalize (nodes.get ⟨i, hi⟩).name) nodes with
    | none =>
      have hs := (lastPosOf_isSome_iff _ nodes).2 hmm
      rw [hl] at hs
      cases hs
    | some j =>
      have hj : j < nodes.length := lastPosOf_lt_length _ nodes j hl
      have hspec := (lastPosOf_spec _ nodes j hj hl).1
      have hget : (nodes.map fun n => normalize n.name).get
            ⟨j, by simpa using hj⟩ =
          (nodes.map fun n => normalize n.name).get ⟨i, by simpa using hi⟩ := by
        simp only [List.get_eq_getElem, List.getElem_map]
        exact hspec
      have hji := List.nodup_iff_injective_get.1 hnd hget
      have : j = i := congrArg Fin.val hji
      subst this
      show some (j + 0) = some j
      congr 1

/-- Auxiliary: running `resolve_links` on the re-materialized links built
by `process_graph_data` (filtered so that both endpoints are keys of the
index map) resolves exactly the edges the fused pipeline resolves. -/
theorem resolve_links_remat (ns : List GraphNode) (es : List Edge) :
    resolve_links ns ((es.filter fun e =>
        (mapGet (buildNodeIndices 0 ns) (normalize e.source)).isSome &&
        (mapGet (buildNodeIndices 0 ns) (normalize e.target)).isSome).map
      fun e => { source := e.source, target := e.target, weight := e.weight }) =
      es.filterMap fun e =>
        match mapGet (buildNodeIndices 0 ns) (normalize e.source),
              mapGet (buildNodeIndices 0 ns) (normalize e.target) with
        | some s, some t => some { source := s, target := t, weight := e.weight }
        | _, _ => none := by
  induction es with
  | nil => rfl
  | cons e es ih =>
    cases h1 : mapGet (buildNodeIndices 0 ns) (normalize e.source) with
    | none =>
      rw [List.filter_cons_of_neg (by simp [h1]), ih, List.filterMap_cons]
      simp only [h1]
    | some s =>
      cases h2 : mapGet (buildNodeIndices 0 ns) (normalize e.target) with
      | none =>
        rw [List.filter_cons_of_neg (by simp [h1, h2]), ih, List.filterMap_cons]
        simp only [h1, h2]
      | some t =>
        rw [List.filter_cons_of_pos (by simp [h1, h2]), List.map_cons,
          resolve_links_cons_hit h1 h2, ih, List.filterMap_cons]
        simp only [h1, h2]

/-- Claim C1: fusion equivalence — for every input, the fused pipeline
`process_and_resolve_graph` returns exactly the `ResolvedGraph` obtained
by running `process_graph_data` and then `resolve_links` on its node and
link lists. -/
theorem C1_fusion_equivalence (nodes : List Artist) (edges : List Edge)
    (center : Option Str) (threshold : ℚ) :
    process_and_resolve_graph nodes edges center threshold =
      { nodes := (process_graph_data nodes edges center threshold).nodes,
        links := resolve_links
          (process_graph_data nodes edges center threshold).nodes
          (process_graph_data nodes edges center threshold).links } := by
  simp only [process_and_resolve_graph, process_graph_data]
  simp only [nodeFilter_snd]
  congr 1
  exact (resolve_links_remat
    (nodeFilter (edgeFilter threshold edges).1 (center.map normalize) 0 nodes).1
    (edgeFilter threshold edges).2).symm

/-- Concrete instantiation of `C7_resolved_indices_valid`: the resolved
self-link on the duplicate list has a valid index, and on the
duplicate-free list the sole node gets index 0. -/
theorem C7_witness :
    ({ source := 1, target := 1, weight := 1 } : ResolvedLink).source <
      ([nodeA1, nodeA2] : List GraphNode).length ∧
    mapGet (buildNodeIndices 0 [nodeA1])
      (normalize (([nodeA1] : List GraphNode).get ⟨0, by decide⟩).name) = some 0 :=
  ⟨((C7_resolved_indices_valid [nodeA1, nodeA2] [linkAA] [] [] none 0).1
      { source := 1, target := 1, weight := 1 } (by decide)).1,
   (C7_resolved_indices_valid [nodeA1] [] [] [] none 0).2.2 (by decide) 0 (by decide)⟩

/-- Claim C9: the three pipelines fail exactly when decoding an input
fails (the failure aborts the call before any processing, producing
nothing partial), the filtering cores are total functions — business-level
filtering drops data but never raises — and empty node and edge lists
yield empty outputs with no error. -/
theorem C9_failure_semantics :
    (∀ (nR : Except Str (List Artist)) (eR : Except Str (List Edge))
        (c : Option Str) (t : ℚ),
      (process_graph_data_checked nR eR c t).isOk = (nR.isOk && eR.isOk) ∧
      ∀ ns es, nR = .ok ns → eR = .ok es →
        process_graph_data_checked nR eR c t = .ok (process_graph_data ns es c t)) ∧
    (∀ (nR : Except Str (List GraphNode)) (lR : Except Str (List GraphLink)),
      (resolve_links_checked nR lR).isOk = (nR.isOk && lR.isOk) ∧
      ∀ ns ls, nR = .ok ns → lR = .ok ls →
        resolve_links_checked nR lR = .ok (resolve_links ns ls)) ∧
    (∀ (nR : Except Str (List Artist)) (eR : Except Str (List Edge))
        (c : Option Str) (t : ℚ),
      (process_and_resolve_graph_checked nR eR c t).isOk = (nR.isOk && eR.isOk) ∧
      ∀ ns es, nR = .ok ns → eR = .ok es →
        process_and_resolve_graph_checked nR eR c t =
          .ok (process_and_resolve_graph ns es c t)) ∧
    (∀ (c : Option Str) (t : ℚ),
      process_graph_data [] [] c t = { nodes := [], links := [] } ∧
      resolve_links [] [] = [] ∧
      process_and_resolve_graph [] [] c t = { nodes := [], links := [] }) := by
  refine ⟨fun nR eR c t => ⟨?_, ?_⟩, fun nR lR => ⟨?_, ?_⟩,
    fun nR eR c t => ⟨?_, ?_⟩, fun c t => ⟨rfl, rfl, rfl⟩⟩
  · cases nR <;> cases eR <;> rfl
  · intro ns es hn he
    subst hn
    subst he
    rfl
  · cases nR <;> cases lR <;> rfl
  · intro ns ls hn hl
    subst hn
    subst hl
    rfl
  · cases nR <;> cases eR <;> rfl
  · intro ns es hn he
    subst hn
    subst he
    rfl

/-- Concrete instantiation of `C9_failure_semantics`: successfully decoded
inputs are processed with no error. -/
theorem C9_witness :
    process_graph_data_checked (.ok [artistA]) (.ok [edgeAA]) none 0 =
      .ok (process_graph_data [artistA] [edgeAA] none 0) :=
  (C9_failure_semantics.1 (.ok [artistA]) (.ok [edgeAA]) none 0).2
    [artistA] [edgeAA] rfl rfl

/-- Claim C10: every node output by `process_graph_data` or
`process_and_resolve_graph` carries all fields of some input artist record
unchanged — including the name's original casing — with the four position
fields emitted absent; only `is_center` is computed by the pipeline. -/
theorem C10_artist_fields_carried_unchanged (nodes : List Artist)
    (edges : List Edge) (center : Option Str) (threshold : ℚ) (g : GraphNode)
    (hg : g ∈ (process_graph_data nodes edges center threshold).nodes ∨
          g ∈ (process_and_resolve_graph nodes edges center threshold).nodes) :
    ∃ a ∈ nodes, g.id = a.id ∧ g.name = a.name ∧ g.mbid = a.mbid ∧
      g.url = a.url ∧ g.image_url = a.image_url ∧ g.listeners = a.listeners ∧
      g.playcount = a.playcount ∧ g.tags = a.tags ∧ g.lastfm_url = a.lastfm_url ∧
      g.x = none ∧ g.y = none ∧ g.fx = none ∧ g.fy = none := by
  have hmem : g ∈ (nodeFilter (edgeFilter threshold edges).1
      (center.map normalize) 0 nodes).1 := by
    rcases hg with h | h
    · simpa only [process_graph_data] using h
    · simpa only [process_and_resolve_graph] using h
  rw [nodeFilter_fst] at hmem
  obtain ⟨a, ha, hge⟩ := List.mem_map.1 hmem
  rw [← hge]
  exact ⟨a, (List.mem_filter.1 ha).1,
    rfl, rfl, rfl, rfl, rfl, rfl, rfl, rfl, rfl, rfl, rfl, rfl, rfl⟩

/-- Concrete instantiation of `C10_artist_fields_carried_unchanged` at the
single-artist input. -/
theorem C10_witness :
    ∃ a ∈ [artistA], (Artist.toGraphNode artistA).id = a.id ∧
      (Artist.toGraphNode artistA).name = a.name ∧
      (Artist.toGraphNode artistA).mbid = a.mbid ∧
      (Artist.toGraphNode artistA).url = a.url ∧
      (Artist.toGraphNode artistA).image_url = a.image_url ∧
      (Artist.toGraphNode artistA).listeners = a.listeners ∧
      (Artist.toGraphNode artistA).playcount = a.playcount ∧
      (Artist.toGraphNode artistA).tags = a.tags ∧
      (Artist.toGraphNode artistA).lastfm_url = a.lastfm_url ∧
      (Artist.toGraphNode artistA).x = none ∧
      (Artist.toGraphNode artistA).y = none ∧
      (Artist.toGraphNode artistA).fx = none ∧
      (Artist.toGraphNode artistA).fy = none :=
  C10_artist_fields_carried_unchanged [artistA] [edgeAA] none 0
    (Artist.toGraphNode artistA) (Or.inl (by decide))

end GraphWasm
